import Mathlib

/-!
Verification of the two dune-stanza text filters of the opam-feedstock
recipe: `remove_context_flags_stanzas` (character-based scanner,
`recipe/building/remove_context_flags_stanzas.py`) and
`remove_menhir_stanzas` (line-based scanner,
`recipe/building/remove_menhir_stanzas.py`).

Strings are modelled as `List Char`; Python's `str.lower` is modelled by
ASCII `Char.toLower` (the needles involved are ASCII); the regex word
class of `\b` is modelled by ASCII alphanumerics plus underscore.
-/

namespace OpamFeedstock

/-- Shorthand: the character list of a string literal. -/
def litL (s : String) : List Char := s.toList

/-- Python `needle in hay` substring test on character lists. -/
def isSub (n : List Char) : List Char → Bool
  | [] => n.isEmpty
  | c :: t => n.isPrefixOf (c :: t) || isSub n t

/-- `isSub` decides the Mathlib infix relation. -/
theorem isSub_iff_infix (n h : List Char) : isSub n h = true ↔ n <:+: h := by
  induction h with
  | nil => simp [isSub, List.isEmpty_iff]
  | cons c t ih =>
    simp only [isSub, Bool.or_eq_true, List.isPrefixOf_iff_prefix, ih]
    constructor
    · rintro (hp | hi)
      · exact hp.isInfix
      · exact hi.trans (List.suffix_cons c t).isInfix
    · intro hi
      rcases List.infix_cons_iff.mp hi with hp | hi'
      · exact Or.inl hp
      · exact Or.inr hi'

/-- Python `str.lower` (ASCII model). -/
def lowerL (s : List Char) : List Char := s.map Char.toLower

/-- The three characters the character scanner treats as whitespace
(`content[i] in ' \t\n'`). -/
def wsChar (c : Char) : Bool := c = ' ' || c = '\t' || c = '\n'

/-- `while i < len(content) and content[i] != '\n'`: the span of a line
comment after its leading `;`, and the rest of the input (which is empty
or starts with a newline). -/
def scanComment : List Char → List Char × List Char
  | [] => ([], [])
  | c :: cs =>
    if c = '\n' then ([], c :: cs)
    else
      let p := scanComment cs
      (c :: p.1, p.2)

/-- The balanced-parenthesis scan of `remove_context_flags_stanzas`:
from nesting depth `d`, consume characters until the depth returns to 0
(each `(` increments, each `)` decrements) or the input ends. Returns
the consumed span and the remainder. -/
def scanBal : Nat → List Char → List Char × List Char
  | 0, cs => ([], cs)
  | _ + 1, [] => ([], [])
  | d + 1, c :: cs =>
    let d2 : Nat := if c = '(' then d + 2 else if c = ')' then d else d + 1
    let p := scanBal d2 cs
    (c :: p.1, p.2)

theorem scanComment_append (cs : List Char) :
    (scanComment cs).1 ++ (scanComment cs).2 = cs := by
  induction cs with
  | nil => rfl
  | cons c cs ih =>
    by_cases h : c = '\n' <;> simp [scanComment, h, ih]

theorem scanComment_length (cs : List Char) :
    (scanComment cs).2.length ≤ cs.length := by
  induction cs with
  | nil => exact Nat.le_refl _
  | cons c cs ih =>
    by_cases h : c = '\n' <;> simp [scanComment, h]
    exact Nat.le_succ_of_le ih

theorem scanComment_no_nl (cs : List Char) : '\n' ∉ (scanComment cs).1 := by
  induction cs with
  | nil => simp [scanComment]
  | cons c cs ih =>
    by_cases h : c = '\n' <;> simp [scanComment, h]
    exact ⟨fun hc => h hc.symm, ih⟩

theorem scanComment_rest (cs : List Char) :
    (scanComment cs).2 = [] ∨ (scanComment cs).2.head? = some '\n' := by
  induction cs with
  | nil => exact Or.inl rfl
  | cons c cs ih =>
    by_cases h : c = '\n' <;> simp [scanComment, h]
    exact ih

/-- Re-scanning a newline-free comment body stops exactly at its end. -/
theorem scanComment_spec (b rest : List Char) (hb : '\n' ∉ b)
    (hr : rest = [] ∨ rest.head? = some '\n') :
    scanComment (b ++ rest) = (b, rest) := by
  induction b with
  | nil =>
    rcases hr with h | h
    · simp [h, scanComment]
    · cases rest with
      | nil => simp at h
      | cons r rs =>
        simp only [List.head?_cons, Option.some.injEq] at h
        simp [scanComment, h]
  | cons c b ih =>
    simp only [List.mem_cons, not_or] at hb
    have hc : ¬(c = '\n') := fun hcc => hb.1 hcc.symm
    simp [scanComment, hc, ih hb.2]

theorem scanBal_append (d : Nat) (cs : List Char) :
    (scanBal d cs).1 ++ (scanBal d cs).2 = cs := by
  induction cs generalizing d with
  | nil => cases d <;> rfl
  | cons c cs ih =>
    cases d with
    | zero => rfl
    | succ d => simp [scanBal, ih]

theorem scanBal_length (d : Nat) (cs : List Char) :
    (scanBal d cs).2.length ≤ cs.length := by
  induction cs generalizing d with
  | nil => cases d <;> exact Nat.le_refl _
  | cons c cs ih =>
    cases d with
    | zero => exact Nat.le_refl _
    | succ d =>
      simp only [scanBal]
      exact Nat.le_succ_of_le (ih _)

/-- If the balanced scan stopped before the end of the input (depth hit
zero), then the same span is consumed whatever follows it. -/
theorem scanBal_closed (cs : List Char) : ∀ (d : Nat),
    (scanBal d cs).2 ≠ [] →
    ∀ r', scanBal d ((scanBal d cs).1 ++ r') = ((scanBal d cs).1, r') := by
  induction cs with
  | nil =>
    intro d h r'
    cases d <;> simp [scanBal] at h
  | cons c cs ih =>
    intro d h r'
    cases d with
    | zero => simp [scanBal]
    | succ d =>
      simp only [scanBal, List.append_eq] at h ⊢
      rw [ih _ h r']

/-! ### Character-based filter (`remove_context_flags_stanzas.py`) -/

/-- `sexp.split('\n')[0]`: the first line of a span. -/
def firstLine (s : List Char) : List Char := s.takeWhile (fun c => !(c = '\n'))

/-- The removal predicate of `remove_context_flags_stanzas` (source lines
56-64): case-insensitive substring tests on the expression's raw text. -/
def should_remove_A (s : List Char) : Bool :=
  let sl := lowerL s
  isSub (litL "context_flags") sl ||
  isSub (litL "clibs.sexp") sl ||
  isSub (litL "cxxflags.sexp") sl ||
  isSub (litL "cflags.sexp") sl ||
  (isSub (litL "flags.sexp") sl && isSub (litL "(target") sl)

/-- The replacement marker without its trailing newline:
`'; DISABLED for cross-compilation: ' + first_line[:60] + '...'`. -/
def markerBodyA (s : List Char) : List Char :=
  litL "; DISABLED for cross-compilation: " ++ (firstLine s).take 60 ++ litL "..."

/-- The full replacement marker line (source line 68). -/
def markerA (s : List Char) : List Char := markerBodyA s ++ ['\n']

/-- One token of the character scanner: a whitespace character, a line
comment span (leading `;` included, newline excluded), a balanced
parenthesized expression span, or a stray non-structural character. -/
inductive DuneTok where
  | ws (c : Char)
  | comment (s : List Char)
  | expr (s : List Char)
  | raw (c : Char)
deriving DecidableEq

/-- The scanning loop of `remove_context_flags_stanzas` (source lines
26-51), viewed as a tokenizer: whitespace, comment, expression and stray
characters, in input order. -/
def scanToks (content : List Char) : List DuneTok :=
  match content with
  | [] => []
  | c :: cs =>
    if wsChar c then .ws c :: scanToks cs
    else if c = ';' then
      .comment (c :: (scanComment cs).1) :: scanToks (scanComment cs).2
    else if c = '(' then
      .expr (c :: (scanBal 1 cs).1) :: scanToks (scanBal 1 cs).2
    else .raw c :: scanToks cs
termination_by content.length
decreasing_by
  all_goals simp only [List.length_cons]
  all_goals first
    | exact Nat.lt_succ_self _
    | exact Nat.lt_succ_of_le (scanComment_length _)
    | exact Nat.lt_succ_of_le (scanBal_length _ _)

/-- The exact source span of a token. -/
def tokTextA : DuneTok → List Char
  | .ws c => [c]
  | .comment s => s
  | .expr s => s
  | .raw c => [c]

/-- What the filter emits for a token: removed expressions become the
marker line, everything else is copied verbatim. -/
def renderA : DuneTok → List Char
  | .ws c => [c]
  | .comment s => s
  | .expr s => if should_remove_A s then markerA s else s
  | .raw c => [c]

/-- Whether a token is a removed expression. -/
def removedA : DuneTok → Bool
  | .expr s => should_remove_A s
  | _ => false

/-- The full character-based transform (source lines 26-74): the rewritten
text together with `removed_count`. -/
def remove_context_flags_stanzas (content : List Char) : List Char × Nat :=
  match content with
  | [] => ([], 0)
  | c :: cs =>
    if wsChar c then
      (c :: (remove_context_flags_stanzas cs).1,
        (remove_context_flags_stanzas cs).2)
    else if c = ';' then
      (c :: (scanComment cs).1 ++
          (remove_context_flags_stanzas (scanComment cs).2).1,
        (remove_context_flags_stanzas (scanComment cs).2).2)
    else if c = '(' then
      if should_remove_A (c :: (scanBal 1 cs).1) then
        (markerA (c :: (scanBal 1 cs).1) ++
            (remove_context_flags_stanzas (scanBal 1 cs).2).1,
          (remove_context_flags_stanzas (scanBal 1 cs).2).2 + 1)
      else
        (c :: (scanBal 1 cs).1 ++
            (remove_context_flags_stanzas (scanBal 1 cs).2).1,
          (remove_context_flags_stanzas (scanBal 1 cs).2).2)
    else
      (c :: (remove_context_flags_stanzas cs).1,
        (remove_context_flags_stanzas cs).2)
termination_by content.length
decreasing_by
  all_goals simp only [List.length_cons]
  all_goals first
    | exact Nat.lt_succ_self _
    | exact Nat.lt_succ_of_le (scanComment_length _)
    | exact Nat.lt_succ_of_le (scanBal_length _ _)

/-- The rewritten text alone. -/
def rcfText (content : List Char) : List Char :=
  (remove_context_flags_stanzas content).1

/-- The transform is the render of the token stream, and its count is the
number of removed expression tokens. -/
theorem rcf_eq_toks (content : List Char) :
    remove_context_flags_stanzas content =
      (((scanToks content).map renderA).flatten,
        (scanToks content).countP removedA) := by
  induction content using scanToks.induct with
  | case1 => simp [remove_context_flags_stanzas, scanToks]
  | case2 c cs hws ih =>
    simp [remove_context_flags_stanzas, scanToks, hws, ih, renderA, removedA]
  | case3 cs hws ih =>
    simp [remove_context_flags_stanzas, scanToks, hws, ih, renderA, removedA]
  | case4 cs hws hsemi ih =>
    by_cases hrem : should_remove_A ('(' :: (scanBal 1 cs).1) <;>
      simp [remove_context_flags_stanzas, scanToks, hws, hsemi, hrem, ih,
        renderA, removedA]
  | case5 c cs hws hsemi hpar ih =>
    simp [remove_context_flags_stanzas, scanToks, hws, hsemi, hpar, ih,
      renderA, removedA]

/-- Concatenated source text of a token list. -/
def concatToksA (ts : List DuneTok) : List Char := (ts.map tokTextA).flatten

/-- Well-formedness of one token relative to the text that follows it in
the stream: exactly the conditions under which the scanner reproduces it. -/
def TokOKA : DuneTok → List Char → Prop
  | .ws c, _ => wsChar c = true
  | .comment s, rest => ∃ b, s = ';' :: b ∧ '\n' ∉ b ∧
      (rest = [] ∨ rest.head? = some '\n')
  | .expr s, rest => ∃ b, s = '(' :: b ∧ scanBal 1 (b ++ rest) = (b, rest)
  | .raw c, _ => wsChar c = false ∧ ¬(c = ';') ∧ ¬(c = '(')

/-- Every token of the list is well formed relative to its right context. -/
def CoherentA : List DuneTok → Prop
  | [] => True
  | t :: ts => TokOKA t (concatToksA ts) ∧ CoherentA ts

theorem concatToksA_nil : concatToksA [] = [] := rfl

theorem concatToksA_cons (t : DuneTok) (ts : List DuneTok) :
    concatToksA (t :: ts) = tokTextA t ++ concatToksA ts := by
  simp [concatToksA]

/-- The scanner partitions the input: token texts concatenate back to it. -/
theorem scanToks_text (content : List Char) :
    concatToksA (scanToks content) = content := by
  induction content using scanToks.induct with
  | case1 => simp [scanToks, concatToksA]
  | case2 c cs hws ih =>
    simp [scanToks, hws, concatToksA_cons, ih, tokTextA]
  | case3 cs hws ih =>
    simp [scanToks, hws, concatToksA_cons, tokTextA, ih, scanComment_append]
  | case4 cs hws hsemi ih =>
    simp [scanToks, hws, hsemi, concatToksA_cons, tokTextA, ih,
      scanBal_append]
  | case5 c cs hws hsemi hpar ih =>
    simp [scanToks, hws, hsemi, hpar, concatToksA_cons, ih, tokTextA]

/-- The scanner only produces well-formed token streams. -/
theorem scanToks_coherent (content : List Char) :
    CoherentA (scanToks content) := by
  induction content using scanToks.induct with
  | case1 => simp [scanToks, CoherentA]
  | case2 c cs hws ih =>
    simp only [scanToks, hws, if_true, CoherentA]
    exact ⟨hws, ih⟩
  | case3 cs hws ih =>
    simp only [scanToks, hws, if_false, if_true, CoherentA]
    refine ⟨⟨(scanComment cs).1, rfl, scanComment_no_nl cs, ?_⟩, ih⟩
    rw [scanToks_text]
    exact scanComment_rest cs
  | case4 cs hws hsemi ih =>
    simp only [scanToks, hws, hsemi, if_false, if_true, CoherentA]
    refine ⟨⟨(scanBal 1 cs).1, rfl, ?_⟩, ih⟩
    rw [scanToks_text, scanBal_append]
  | case5 c cs hws hsemi hpar ih =>
    simp only [scanToks, hws, hsemi, hpar, if_false, CoherentA]
    exact ⟨⟨by simpa using hws, hsemi, hpar⟩, ih⟩

/-- A well-formed token has nonempty text. -/
theorem tokTextA_ne_nil (t : DuneTok) (rest : List Char) (h : TokOKA t rest) :
    tokTextA t ≠ [] := by
  cases t with
  | ws c => simp [tokTextA]
  | comment s =>
    obtain ⟨b, rfl, -, -⟩ := h
    simp [tokTextA]
  | expr s =>
    obtain ⟨b, rfl, -⟩ := h
    simp [tokTextA]
  | raw c => simp [tokTextA]

/-- A nonempty well-formed token stream has nonempty text. -/
theorem concatToksA_ne_nil (ts : List DuneTok) (hc : CoherentA ts)
    (hne : ts ≠ []) : concatToksA ts ≠ [] := by
  cases ts with
  | nil => exact absurd rfl hne
  | cons t ts =>
    rw [concatToksA_cons]
    intro hemp
    rcases List.append_eq_nil.mp hemp with ⟨h1, -⟩
    exact tokTextA_ne_nil t _ hc.1 h1

/-- Scanning the text of a well-formed token stream recovers the stream. -/
theorem scanToks_of_coherent (ts : List DuneTok) (hc : CoherentA ts) :
    scanToks (concatToksA ts) = ts := by
  induction ts with
  | nil => simp [scanToks, concatToksA]
  | cons t ts ih =>
    obtain ⟨hok, hrest⟩ := hc
    rw [concatToksA_cons]
    cases t with
    | ws c =>
      have hws : wsChar c = true := hok
      simp only [tokTextA, List.singleton_append]
      rw [scanToks, if_pos hws, ih hrest]
    | comment s =>
      obtain ⟨b, rfl, hnl, hr⟩ := hok
      simp only [tokTextA, List.cons_append]
      rw [scanToks, scanComment_spec b _ hnl hr]
      simp [ih hrest, wsChar]
    | expr s =>
      obtain ⟨b, rfl, hbal⟩ := hok
      simp only [tokTextA, List.cons_append]
      rw [scanToks, hbal]
      simp [ih hrest, wsChar]
    | raw c =>
      obtain ⟨hws, hsemi, hpar⟩ := hok
      simp only [tokTextA, List.singleton_append]
      rw [scanToks]
      simp [hws, hsemi, hpar, ih hrest]

/-- The tail of the marker after its leading `;`. -/
def markerTailA (s : List Char) : List Char :=
  litL " DISABLED for cross-compilation: " ++ (firstLine s).take 60 ++ litL "..."

theorem markerBodyA_eq (s : List Char) :
    markerBodyA s = ';' :: markerTailA s := by
  simp [markerBodyA, markerTailA, litL]

theorem firstLine_no_nl (s : List Char) : '\n' ∉ firstLine s := by
  intro h
  have := List.mem_takeWhile_imp h
  simp at this

theorem markerTailA_no_nl (s : List Char) : '\n' ∉ markerTailA s := by
  intro h
  simp only [markerTailA, List.mem_append] at h
  rcases h with (h | h) | h
  · revert h; decide
  · exact firstLine_no_nl s (List.take_subset 60 _ h)
  · revert h; decide

/-- The token stream the filter's output corresponds to: a removed
expression becomes a comment token (the marker body) plus its newline. -/
def renderToksA : DuneTok → List DuneTok
  | .expr s =>
    if should_remove_A s then [.comment (markerBodyA s), .ws '\n']
    else [.expr s]
  | t => [t]

theorem concatToksA_renderToksA (t : DuneTok) :
    concatToksA (renderToksA t) = renderA t := by
  cases t with
  | ws c => rfl
  | comment s => simp [renderToksA, renderA, concatToksA, tokTextA]
  | raw c => rfl
  | expr s =>
    by_cases h : should_remove_A s <;>
      simp [renderToksA, renderA, concatToksA, tokTextA, h, markerA]

theorem concatToksA_append (a b : List DuneTok) :
    concatToksA (a ++ b) = concatToksA a ++ concatToksA b := by
  simp [concatToksA]

theorem concat_flatMap_renderA (ts : List DuneTok) :
    concatToksA (ts.flatMap renderToksA) = (ts.map renderA).flatten := by
  induction ts with
  | nil => rfl
  | cons t ts ih =>
    rw [List.flatMap_cons, List.map_cons, List.flatten_cons,
      concatToksA_append, concatToksA_renderToksA, ih]

/-- In a coherent stream whose text starts with a newline, rendering
preserves that leading newline. -/
theorem renderA_head_nl (ts : List DuneTok) (hc : CoherentA ts)
    (h : (concatToksA ts).head? = some '\n') :
    (concatToksA (ts.flatMap renderToksA)).head? = some '\n' := by
  cases ts with
  | nil => simp [concatToksA] at h
  | cons t ts =>
    obtain ⟨hok, hrest⟩ := hc
    rw [concatToksA_cons, List.head?_append] at h
    cases t with
    | ws c =>
      simp only [tokTextA, List.head?_cons, Option.or_some,
        Option.some.injEq] at h
      subst h
      simp [List.flatMap_cons, renderToksA, concatToksA_cons, tokTextA,
        List.head?_append]
    | comment s =>
      obtain ⟨b, rfl, -, -⟩ := hok
      simp [tokTextA] at h
    | expr s =>
      obtain ⟨b, rfl, -⟩ := hok
      simp [tokTextA] at h
    | raw c =>
      obtain ⟨hws, -, -⟩ := hok
      simp only [tokTextA, List.head?_cons, Option.or_some,
        Option.some.injEq] at h
      subst h
      simp [wsChar] at hws

/-- Rendering a coherent stream yields a coherent stream. -/
theorem renderToksA_coherent (ts : List DuneTok) (hc : CoherentA ts) :
    CoherentA (ts.flatMap renderToksA) := by
  induction ts with
  | nil => simp [CoherentA]
  | cons t ts ih =>
    obtain ⟨hok, hrest⟩ := hc
    rw [List.flatMap_cons]
    have ihr := ih hrest
    cases t with
    | ws c => exact ⟨hok, ihr⟩
    | raw c => exact ⟨hok, ihr⟩
    | comment s =>
      obtain ⟨b, rfl, hnl, hr⟩ := hok
      refine ⟨⟨b, rfl, hnl, ?_⟩, ihr⟩
      rcases hr with hr | hr
      · left
        have hts : ts = [] := by
          by_contra hne
          exact concatToksA_ne_nil ts hrest hne hr
        subst hts
        rfl
      · right
        exact renderA_head_nl ts hrest hr
    | expr s =>
      obtain ⟨b, rfl, hbal⟩ := hok
      by_cases hrem : should_remove_A ('(' :: b)
      · simp only [renderToksA, hrem, if_true]
        refine ⟨?_, ?_, ihr⟩
        · rw [markerBodyA_eq]
          refine ⟨markerTailA ('(' :: b), rfl, markerTailA_no_nl _, ?_⟩
          right
          simp [concatToksA_cons, tokTextA, List.head?_append]
        · show wsChar '\n' = true
          decide
      · simp only [renderToksA, hrem, if_false]
        refine ⟨⟨b, rfl, ?_⟩, ihr⟩
        by_cases hre : concatToksA ts = []
        · have hts : ts = [] := by
            by_contra hne
            exact concatToksA_ne_nil ts hrest hne hre
          subst hts
          rw [hre] at hbal
          simpa [concatToksA] using hbal
        · have hcl := scanBal_closed (b ++ concatToksA ts) 1
          rw [hbal] at hcl
          exact hcl hre _

/-- No token of a rendered stream is a removed expression. -/
theorem renderToksA_all_kept (ts : List DuneTok) :
    ∀ t ∈ ts.flatMap renderToksA, removedA t = false := by
  induction ts with
  | nil => simp
  | cons t ts ih =>
    intro t' ht'
    rw [List.flatMap_cons, List.mem_append] at ht'
    rcases ht' with ht' | ht'
    · cases t with
      | ws c => simp only [renderToksA, List.mem_singleton] at ht'; subst ht'; rfl
      | raw c => simp only [renderToksA, List.mem_singleton] at ht'; subst ht'; rfl
      | comment s => simp only [renderToksA, List.mem_singleton] at ht'; subst ht'; rfl
      | expr s =>
        by_cases hrem : should_remove_A s
        · simp [renderToksA, hrem] at ht'
          rcases ht' with rfl | rfl <;> rfl
        · simp [renderToksA, hrem] at ht'
          subst ht'
          simpa [removedA] using hrem
    · exact ih t' ht'

/-- When no token is removed, rendering is the identity on text. -/
theorem flatten_renderA_of_kept (ts : List DuneTok)
    (h : ∀ t ∈ ts, removedA t = false) :
    (ts.map renderA).flatten = concatToksA ts := by
  induction ts with
  | nil => rfl
  | cons t ts ih =>
    have ht := h t (List.mem_cons_self t ts)
    have hts := ih (fun t' ht' => h t' (List.mem_cons_of_mem t ht'))
    rw [List.map_cons, List.flatten_cons, concatToksA_cons, hts]
    congr 1
    cases t with
    | ws c => rfl
    | comment s => rfl
    | raw c => rfl
    | expr s =>
      simp only [removedA] at ht
      simp [renderA, tokTextA, ht]

/-- The character-based transform is idempotent on text. -/
theorem rcfText_idem (content : List Char) :
    rcfText (rcfText content) = rcfText content := by
  have h1 : rcfText content =
      concatToksA ((scanToks content).flatMap renderToksA) := by
    rw [rcfText, rcf_eq_toks, concat_flatMap_renderA]
  have h2 : scanToks (rcfText content) =
      (scanToks content).flatMap renderToksA := by
    rw [h1]
    exact scanToks_of_coherent _
      (renderToksA_coherent _ (scanToks_coherent content))
  rw [rcfText, rcf_eq_toks]
  show (List.map renderA (scanToks (rcfText content))).flatten = _
  rw [h2, flatten_renderA_of_kept _ (renderToksA_all_kept _), ← h1]

/-! ### Line-based filter (`remove_menhir_stanzas.py`) -/

/-- The whitespace characters stripped by Python `str.strip()`. -/
def isPySpace (c : Char) : Bool :=
  c = ' ' || c = '\t' || c = '\n' || c = '\r' || c = '\x0b' || c = '\x0c'

/-- Python `line.strip()`. -/
def stripChars (l : List Char) : List Char :=
  ((l.dropWhile isPySpace).reverse.dropWhile isPySpace).reverse

/-- Python `content.split('\n')`: always nonempty, newline-free parts. -/
def splitNl : List Char → List (List Char)
  | [] => [[]]
  | c :: cs =>
    match splitNl cs with
    | [] => [[]]
    | l :: ls => if c = '\n' then [] :: l :: ls else (c :: l) :: ls

/-- Helper for `'\n'.join`: the tail lines, each preceded by a newline. -/
def joinTail : List (List Char) → List Char
  | [] => []
  | l :: ls => '\n' :: (l ++ joinTail ls)

/-- Python `'\n'.join(lines)`. -/
def joinLines : List (List Char) → List Char
  | [] => []
  | l :: ls => l ++ joinTail ls

/-- `line.count('(') - line.count(')')` as an integer. -/
def parenDelta (l : List Char) : Int :=
  (l.count '(' : Int) - (l.count ')' : Int)

/-- The stanza-collection loop (source lines 36-42): starting from the
running paren balance `d` after the first line, accumulate further lines
while the balance stays positive and lines remain. Returns the collected
lines and the remaining lines. -/
def collectRest (d : Int) : List (List Char) → List (List Char) × List (List Char)
  | [] => ([], [])
  | l :: rest =>
    if d ≤ 0 then ([], l :: rest)
    else
      ((l :: (collectRest (d + parenDelta l) rest).1),
        (collectRest (d + parenDelta l) rest).2)

theorem collectRest_append (ls : List (List Char)) : ∀ d,
    (collectRest d ls).1 ++ (collectRest d ls).2 = ls := by
  induction ls with
  | nil => intro d; rfl
  | cons l rest ih =>
    intro d
    by_cases h : d ≤ 0 <;> simp [collectRest, h, ih]

theorem collectRest_length (ls : List (List Char)) : ∀ d,
    (collectRest d ls).2.length ≤ ls.length := by
  induction ls with
  | nil => intro d; exact Nat.le_refl _
  | cons l rest ih =>
    intro d
    by_cases h : d ≤ 0 <;> simp [collectRest, h]
    exact Nat.le_succ_of_le (ih _)

/-- If collection stopped with lines remaining (balance closed), the same
lines are collected whatever follows them. -/
theorem collectRest_closed (ls : List (List Char)) : ∀ d,
    (collectRest d ls).2 ≠ [] →
    ∀ r', collectRest d ((collectRest d ls).1 ++ r') =
      ((collectRest d ls).1, r') := by
  induction ls with
  | nil =>
    intro d h r'
    exact absurd rfl h
  | cons l rest ih =>
    intro d h r'
    by_cases hd : d ≤ 0
    · simp [collectRest, hd] at h ⊢
      cases r' with
      | nil => rfl
      | cons x xs => simp [collectRest, hd]
    · simp only [collectRest, hd, if_false] at h
      conv_lhs => rw [collectRest]
      conv_rhs => rw [collectRest]
      simp only [hd, if_false, List.cons_append]
      rw [collectRest]
      simp only [hd, if_false]
      rw [ih _ h r']

/-- ASCII model of the regex word class `\w`. -/
def isWordChar (c : Char) : Bool := c.isAlphanum || c = '_'

/-- A word boundary next to an occurrence: no neighbouring character, or
a non-word neighbouring character. -/
def boundaryOK : Option Char → Bool
  | none => true
  | some c => !isWordChar c

def menhirChars : List Char := litL "menhir"

/-- Does `\bmenhir\b` match at the start of `s`, where `prev` is the
character just before `s` (none at the start of the text)? -/
def wordMenhirAt (prev : Option Char) (s : List Char) : Bool :=
  menhirChars.isPrefixOf s && boundaryOK prev && boundaryOK (s.drop 6).head?

/-- `re.search(r'\bmenhir\b', ...)` scanning with the previous character
carried along. -/
def hasWordMenhirFrom : Option Char → List Char → Bool
  | _, [] => false
  | prev, c :: cs => wordMenhirAt prev (c :: cs) || hasWordMenhirFrom (some c) cs

/-- `re.search(r'\bmenhir\b', s)` is not `None`. -/
def hasWordMenhir (s : List Char) : Bool := hasWordMenhirFrom none s

/-- The removal decision of `remove_menhir_stanzas` (source lines 46-57),
as a function of the stripped first line and the joined stanza text.
Returns the reason string when the stanza is removed. -/
def reasonB (stripped content : List Char) : Option (List Char) :=
  if (litL "(menhir").isPrefixOf stripped then some (litL "menhir stanza")
  else if (litL "(rule").isPrefixOf stripped && hasWordMenhir content then
    some (litL "rule invoking menhir")
  else none

/-- `'; REMOVED (<reason>): '`, the per-line prefix of a removed stanza. -/
def markerB (r : List Char) : List Char :=
  litL "; REMOVED (" ++ r ++ litL "): "

/-- The line-level transform of `remove_menhir_stanzas` (source lines
24-74): walk the lines; a line starting with `(` opens a stanza, which is
collected, decided, and either commented out line by line or kept. -/
def remove_menhir_stanzas_lines : List (List Char) → List (List Char)
  | [] => []
  | l :: ls =>
    if l.head? = some '(' then
      match reasonB (stripChars l)
          (joinLines (l :: (collectRest (parenDelta l) ls).1)) with
      | some r =>
        (l :: (collectRest (parenDelta l) ls).1).map (fun sl => markerB r ++ sl)
          ++ remove_menhir_stanzas_lines (collectRest (parenDelta l) ls).2
      | none =>
        (l :: (collectRest (parenDelta l) ls).1)
          ++ remove_menhir_stanzas_lines (collectRest (parenDelta l) ls).2
    else l :: remove_menhir_stanzas_lines ls
termination_by ls => ls.length
decreasing_by
  all_goals simp only [List.length_cons]
  all_goals first
    | exact Nat.lt_succ_self _
    | exact Nat.lt_succ_of_le (collectRest_length _ _)

/-- The full text transform of `remove_menhir_stanzas`. -/
def remove_menhir_stanzas (content : List Char) : List Char :=
  joinLines (remove_menhir_stanzas_lines (splitNl content))

/-- The count reported by `main` (source lines 103-106): the number of
lines of the rewritten text that start with `'; REMOVED'`. -/
def menhir_reported_count (content : List Char) : Nat :=
  (splitNl (remove_menhir_stanzas content)).countP
    (fun l => (litL "; REMOVED").isPrefixOf l)

theorem splitNl_ne_nil (cs : List Char) : splitNl cs ≠ [] := by
  cases cs with
  | nil => simp [splitNl]
  | cons c cs =>
    rw [splitNl]
    match h : splitNl cs with
    | [] => simp
    | l :: ls => by_cases hc : c = '\n' <;> simp [hc]

theorem splitNl_no_nl (cs : List Char) : ∀ l ∈ splitNl cs, '\n' ∉ l := by
  induction cs with
  | nil => simp [splitNl]
  | cons c cs ih =>
    rw [splitNl]
    match h : splitNl cs with
    | [] => simp
    | l :: ls =>
      rw [h] at ih
      by_cases hc : c = '\n'
      · simpa [hc] using ih
      · intro l' hl'
        simp only [hc, if_false, List.mem_cons] at hl'
        rcases hl' with rfl | hl'
        · intro hmem
          rcases List.mem_cons.mp hmem with h1 | h1
          · exact hc h1.symm
          · exact ih l (List.mem_cons_self l ls) h1
        · exact ih l' (List.mem_cons_of_mem l hl')

/-- `'\n'.join` undoes `split('\n')` on any text. -/
theorem joinLines_splitNl (cs : List Char) : joinLines (splitNl cs) = cs := by
  induction cs with
  | nil => rfl
  | cons c cs ih =>
    rw [splitNl]
    match h : splitNl cs with
    | [] => exact absurd h (splitNl_ne_nil cs)
    | l :: ls =>
      rw [h] at ih
      by_cases hc : c = '\n'
      · subst hc
        simpa [joinLines, joinTail] using ih
      · simp only [hc, if_false]
        cases ls with
        | nil => simpa [joinLines, joinTail] using ih
        | cons l2 ls2 => simpa [joinLines, joinTail] using ih

/-- A newline-free text splits into the single line it is. -/
theorem splitNl_of_no_nl (l : List Char) (hl : '\n' ∉ l) :
    splitNl l = [l] := by
  induction l with
  | nil => rfl
  | cons c cl ih =>
    simp only [List.mem_cons, not_or] at hl
    have hc : ¬(c = '\n') := fun h => hl.1 h.symm
    rw [splitNl, ih hl.2]
    simp [hc]

/-- Splitting a newline-free line followed by a newline peels it off. -/
theorem splitNl_append_nl (l rest : List Char) (hl : '\n' ∉ l) :
    splitNl (l ++ '\n' :: rest) = l :: splitNl rest := by
  induction l with
  | nil =>
    simp only [List.nil_append]
    rw [splitNl]
    match h : splitNl rest with
    | [] => exact absurd h (splitNl_ne_nil _)
    | x :: xs => simp
  | cons c cl ih =>
    simp only [List.mem_cons, not_or] at hl
    simp only [List.cons_append]
    have hc : ¬(c = '\n') := fun h => hl.1 h.symm
    rw [splitNl, ih hl.2]
    simp [hc]

/-- `split('\n')` undoes `'\n'.join` on a nonempty list of
newline-free lines. -/
theorem splitNl_joinLines (L : List (List Char)) (hne : L ≠ [])
    (hnl : ∀ l ∈ L, '\n' ∉ l) : splitNl (joinLines L) = L := by
  induction L with
  | nil => exact absurd rfl hne
  | cons l ls ih =>
    have hl : '\n' ∉ l := hnl l (List.mem_cons_self l ls)
    cases ls with
    | nil => simpa [joinLines, joinTail] using splitNl_of_no_nl l hl
    | cons l2 ls2 =>
      have step : joinLines (l :: l2 :: ls2) =
          l ++ '\n' :: joinLines (l2 :: ls2) := by
        simp [joinLines, joinTail]
      rw [step, splitNl_append_nl _ _ hl,
        ih (by simp) (fun x hx => hnl x (List.mem_cons_of_mem l hx))]

/-- One unit of the line scanner: a passed-through line or a collected
stanza (its lines). -/
inductive MenTok where
  | pass (l : List Char)
  | stanza (ls : List (List Char))
deriving DecidableEq

/-- The line walk of `remove_menhir_stanzas` viewed as a tokenizer. -/
def scanStanzas : List (List Char) → List MenTok
  | [] => []
  | l :: ls =>
    if l.head? = some '(' then
      .stanza (l :: (collectRest (parenDelta l) ls).1)
        :: scanStanzas (collectRest (parenDelta l) ls).2
    else .pass l :: scanStanzas ls
termination_by ls => ls.length
decreasing_by
  all_goals simp only [List.length_cons]
  all_goals first
    | exact Nat.lt_succ_self _
    | exact Nat.lt_succ_of_le (collectRest_length _ _)

/-- The source lines of a unit. -/
def tokLinesB : MenTok → List (List Char)
  | .pass l => [l]
  | .stanza ls => ls

/-- The removal decision applied to a unit: stanzas are judged by
`reasonB` on their stripped first line and joined text. -/
def menReason : MenTok → Option (List Char)
  | .pass _ => none
  | .stanza [] => none
  | .stanza (l :: tl) => reasonB (stripChars l) (joinLines (l :: tl))

/-- Whether a unit is removed. -/
def removedB (t : MenTok) : Bool := (menReason t).isSome

/-- The output lines of a unit: a removed stanza has each line prefixed
with the marker, everything else is passed through. -/
def renderB (t : MenTok) : List (List Char) :=
  match t with
  | .pass l => [l]
  | .stanza [] => []
  | .stanza (l :: tl) =>
    match reasonB (stripChars l) (joinLines (l :: tl)) with
    | some r => (l :: tl).map (fun sl => markerB r ++ sl)
    | none => l :: tl

/-- Concatenated source lines of a unit list. -/
def concatB (ts : List MenTok) : List (List Char) := (ts.map tokLinesB).flatten

/-- Well-formedness of a unit relative to the lines that follow it. -/
def TokOKB : MenTok → List (List Char) → Prop
  | .pass l, _ => ¬(l.head? = some '(')
  | .stanza ls, rest => ∃ l tl, ls = l :: tl ∧ l.head? = some '(' ∧
      collectRest (parenDelta l) (tl ++ rest) = (tl, rest)

def CoherentB : List MenTok → Prop
  | [] => True
  | t :: ts => TokOKB t (concatB ts) ∧ CoherentB ts

theorem concatB_cons (t : MenTok) (ts : List MenTok) :
    concatB (t :: ts) = tokLinesB t ++ concatB ts := by
  simp [concatB]

theorem concatB_append (a b : List MenTok) :
    concatB (a ++ b) = concatB a ++ concatB b := by
  simp [concatB]

/-- The line transform is the rendering of the unit stream. -/
theorem rms_eq_toksB (lines : List (List Char)) :
    remove_menhir_stanzas_lines lines = (scanStanzas lines).flatMap renderB := by
  induction lines using scanStanzas.induct with
  | case1 => simp [remove_menhir_stanzas_lines, scanStanzas]
  | case2 l ls hl ih =>
    rw [remove_menhir_stanzas_lines, scanStanzas]
    simp only [hl, if_true, List.flatMap_cons, renderB]
    cases hr : reasonB (stripChars l)
        (joinLines (l :: (collectRest (parenDelta l) ls).1)) <;>
      simp [hr, ih]
  | case3 l ls hl ih =>
    rw [remove_menhir_stanzas_lines, scanStanzas]
    simp [hl, ih, renderB]

/-- The line scanner partitions the input lines. -/
theorem scanStanzas_text (lines : List (List Char)) :
    concatB (scanStanzas lines) = lines := by
  induction lines using scanStanzas.induct with
  | case1 => simp [scanStanzas, concatB]
  | case2 l ls hl ih =>
    rw [scanStanzas]
    simp only [hl, if_true, concatB_cons, tokLinesB, ih, List.cons_append]
    rw [collectRest_append]
  | case3 l ls hl ih =>
    rw [scanStanzas]
    simp [hl, concatB_cons, tokLinesB, ih]

/-- The line scanner only produces well-formed unit streams. -/
theorem scanStanzas_coherent (lines : List (List Char)) :
    CoherentB (scanStanzas lines) := by
  induction lines using scanStanzas.induct with
  | case1 => simp [scanStanzas, CoherentB]
  | case2 l ls hl ih =>
    rw [scanStanzas]
    simp only [hl, if_true, CoherentB]
    refine ⟨⟨l, (collectRest (parenDelta l) ls).1, rfl, hl, ?_⟩, ih⟩
    rw [scanStanzas_text, collectRest_append]
  | case3 l ls hl ih =>
    rw [scanStanzas]
    simp only [hl, if_false, CoherentB]
    exact ⟨hl, ih⟩

theorem tokLinesB_ne_nil (t : MenTok) (rest : List (List Char))
    (h : TokOKB t rest) : tokLinesB t ≠ [] := by
  cases t with
  | pass l => simp [tokLinesB]
  | stanza ls =>
    obtain ⟨l, tl, rfl, -, -⟩ := h
    simp [tokLinesB]

theorem concatB_ne_nil (ts : List MenTok) (hc : CoherentB ts)
    (hne : ts ≠ []) : concatB ts ≠ [] := by
  cases ts with
  | nil => exact absurd rfl hne
  | cons t ts =>
    rw [concatB_cons]
    intro hemp
    rcases List.append_eq_nil.mp hemp with ⟨h1, -⟩
    exact tokLinesB_ne_nil t _ hc.1 h1

/-- Scanning the lines of a well-formed unit stream recovers the stream. -/
theorem scanStanzas_of_coherent (ts : List MenTok) (hc : CoherentB ts) :
    scanStanzas (concatB ts) = ts := by
  induction ts with
  | nil => simp [scanStanzas, concatB]
  | cons t ts ih =>
    obtain ⟨hok, hrest⟩ := hc
    rw [concatB_cons]
    cases t with
    | pass l =>
      have hok2 : ¬(l.head? = some '(') := hok
      simp only [tokLinesB, List.singleton_append]
      rw [scanStanzas]
      simp only [if_neg hok2]
      rw [ih hrest]
    | stanza ls =>
      obtain ⟨l, tl, rfl, hl, hcol⟩ := hok
      simp only [tokLinesB, List.cons_append]
      rw [scanStanzas]
      simp only [hl, if_true, hcol]
      rw [ih hrest]

theorem markerB_eq_cons (r : List Char) :
    markerB r = ';' :: (litL " REMOVED (" ++ r ++ litL "): ") := by
  simp [markerB, litL]

theorem markerB_append_head (r sl : List Char) :
    (markerB r ++ sl).head? = some ';' := by
  rw [markerB_eq_cons]
  rfl

/-- `reasonB` only ever returns one of its two literal reason strings. -/
theorem reasonB_cases (stripped content r : List Char)
    (h : reasonB stripped content = some r) :
    r = litL "menhir stanza" ∨ r = litL "rule invoking menhir" := by
  unfold reasonB at h
  by_cases h1 : (litL "(menhir").isPrefixOf stripped
  · simp only [h1, if_true, Option.some.injEq] at h
    exact Or.inl h.symm
  · simp only [h1, if_false, Bool.false_eq_true] at h
    by_cases h2 : ((litL "(rule").isPrefixOf stripped && hasWordMenhir content) = true
    · simp only [h2, if_true, Option.some.injEq] at h
      exact Or.inr h.symm
    · simp [h2] at h

theorem markerB_no_nl (r : List Char) (hr : '\n' ∉ r) : '\n' ∉ markerB r := by
  intro h
  simp only [markerB, List.mem_append] at h
  rcases h with (h | h) | h
  · revert h; decide
  · exact hr h
  · revert h; decide

/-- The unit stream the line filter's output corresponds to: a removed
stanza becomes one pass-through unit per commented-out line. -/
def renderToksB : MenTok → List MenTok
  | .pass l => [.pass l]
  | .stanza [] => []
  | .stanza (l :: tl) =>
    match reasonB (stripChars l) (joinLines (l :: tl)) with
    | some r => ((l :: tl).map (fun sl => markerB r ++ sl)).map .pass
    | none => [.stanza (l :: tl)]

theorem concatB_map_pass (ms : List (List Char)) :
    concatB (ms.map MenTok.pass) = ms := by
  induction ms with
  | nil => rfl
  | cons m ms ih => simp [concatB, tokLinesB] at ih ⊢; exact ih

theorem concatB_renderToksB (t : MenTok) :
    concatB (renderToksB t) = renderB t := by
  cases t with
  | pass l => rfl
  | stanza ls =>
    cases ls with
    | nil => rfl
    | cons l tl =>
      cases hr : reasonB (stripChars l) (joinLines (l :: tl)) with
      | some r =>
        simp only [renderToksB, renderB, hr]
        exact concatB_map_pass _
      | none => simp [renderToksB, renderB, hr, concatB, tokLinesB]

theorem concat_flatMap_renderB (ts : List MenTok) :
    concatB (ts.flatMap renderToksB) = ts.flatMap renderB := by
  induction ts with
  | nil => rfl
  | cons t ts ih =>
    rw [List.flatMap_cons, List.flatMap_cons, concatB_append,
      concatB_renderToksB, ih]

/-- Prepending pass-through units with non-`(` first characters keeps a
stream coherent. -/
theorem CoherentB_pass_append (ms : List (List Char)) (rest : List MenTok)
    (h : ∀ m ∈ ms, ¬(m.head? = some '(')) (hc : CoherentB rest) :
    CoherentB (ms.map MenTok.pass ++ rest) := by
  induction ms with
  | nil => simpa using hc
  | cons m ms ih =>
    refine ⟨h m (List.mem_cons_self m ms), ?_⟩
    exact ih (fun x hx => h x (List.mem_cons_of_mem m hx))

/-- Rendering a coherent unit stream yields a coherent unit stream. -/
theorem renderToksB_coherent (ts : List MenTok) (hc : CoherentB ts) :
    CoherentB (ts.flatMap renderToksB) := by
  induction ts with
  | nil => simp [CoherentB]
  | cons t ts ih =>
    obtain ⟨hok, hrest⟩ := hc
    rw [List.flatMap_cons]
    have ihr := ih hrest
    cases t with
    | pass l => exact ⟨hok, ihr⟩
    | stanza ls =>
      obtain ⟨l, tl, rfl, hl, hcol⟩ := hok
      cases hr : reasonB (stripChars l) (joinLines (l :: tl)) with
      | some r =>
        simp only [renderToksB, hr]
        refine CoherentB_pass_append _ _ ?_ ihr
        intro m hm
        rcases List.mem_map.mp hm with ⟨sl, -, rfl⟩
        rw [markerB_append_head]
        simp
      | none =>
        simp only [renderToksB, hr, List.singleton_append]
        refine ⟨⟨l, tl, rfl, hl, ?_⟩, ihr⟩
        by_cases hre : concatB ts = []
        · have hts : ts = [] := by
            by_contra hne
            exact concatB_ne_nil ts hrest hne hre
          subst hts
          rw [hre] at hcol
          simpa [concatB] using hcol
        · have hcl := collectRest_closed (tl ++ concatB ts) (parenDelta l)
          rw [hcol] at hcl
          exact hcl hre _

/-- No unit of a rendered stream is removed. -/
theorem renderToksB_all_kept (ts : List MenTok) :
    ∀ t ∈ ts.flatMap renderToksB, removedB t = false := by
  induction ts with
  | nil => simp
  | cons t ts ih =>
    intro t' ht'
    rw [List.flatMap_cons, List.mem_append] at ht'
    rcases ht' with ht' | ht'
    · cases t with
      | pass l =>
        simp only [renderToksB, List.mem_singleton] at ht'
        subst ht'
        rfl
      | stanza ls =>
        cases ls with
        | nil => simp [renderToksB] at ht'
        | cons l tl =>
          cases hr : reasonB (stripChars l) (joinLines (l :: tl)) with
          | some r =>
            simp only [renderToksB, hr, List.mem_map] at ht'
            obtain ⟨x, -, rfl⟩ := ht'
            rfl
          | none =>
            simp only [renderToksB, hr, List.mem_singleton] at ht'
            subst ht'
            simp [removedB, menReason, hr]
    · exact ih t' ht'

/-- When no unit is removed, rendering passes all lines through. -/
theorem flatMap_renderB_of_kept (ts : List MenTok)
    (h : ∀ t ∈ ts, removedB t = false) :
    ts.flatMap renderB = concatB ts := by
  induction ts with
  | nil => rfl
  | cons t ts ih =>
    have ht := h t (List.mem_cons_self t ts)
    have hts := ih (fun t' ht' => h t' (List.mem_cons_of_mem t ht'))
    rw [List.flatMap_cons, concatB_cons, hts]
    congr 1
    cases t with
    | pass l => rfl
    | stanza ls =>
      cases ls with
      | nil => rfl
      | cons l tl =>
        simp only [removedB, menReason] at ht
        have hnone : reasonB (stripChars l) (joinLines (l :: tl)) = none := by
          cases hx : reasonB (stripChars l) (joinLines (l :: tl)) with
          | none => rfl
          | some r => rw [hx] at ht; simp at ht
        simp [renderB, hnone, tokLinesB]

/-- The line-level transform is idempotent. -/
theorem rms_lines_idem (lines : List (List Char)) :
    remove_menhir_stanzas_lines (remove_menhir_stanzas_lines lines) =
      remove_menhir_stanzas_lines lines := by
  have h1 : remove_menhir_stanzas_lines lines =
      concatB ((scanStanzas lines).flatMap renderToksB) := by
    rw [rms_eq_toksB, concat_flatMap_renderB]
  have h2 : scanStanzas (remove_menhir_stanzas_lines lines) =
      (scanStanzas lines).flatMap renderToksB := by
    rw [h1]
    exact scanStanzas_of_coherent _
      (renderToksB_coherent _ (scanStanzas_coherent lines))
  rw [rms_eq_toksB, h2, flatMap_renderB_of_kept _ (renderToksB_all_kept _),
    ← h1]

theorem mem_concatB (t : MenTok) (ts : List MenTok) (x : List Char)
    (ht : t ∈ ts) (hx : x ∈ tokLinesB t) : x ∈ concatB ts := by
  rw [concatB, List.mem_flatten]
  exact ⟨tokLinesB t, List.mem_map_of_mem tokLinesB ht, hx⟩

/-- The line transform does not introduce newlines into lines. -/
theorem rms_lines_no_nl (lines : List (List Char))
    (h : ∀ l ∈ lines, '\n' ∉ l) :
    ∀ l' ∈ remove_menhir_stanzas_lines lines, '\n' ∉ l' := by
  intro l' hl'
  rw [rms_eq_toksB] at hl'
  rcases List.mem_flatMap.mp hl' with ⟨t, ht, hmem⟩
  have hsub : ∀ x ∈ tokLinesB t, '\n' ∉ x := by
    intro x hx
    exact h x (scanStanzas_text lines ▸ mem_concatB t _ x ht hx)
  cases t with
  | pass l =>
    simp only [renderB, List.mem_singleton] at hmem
    subst hmem
    exact hsub l' (by simp [tokLinesB])
  | stanza ls =>
    cases ls with
    | nil => simp [renderB] at hmem
    | cons l tl =>
      cases hr : reasonB (stripChars l) (joinLines (l :: tl)) with
      | some r =>
        simp only [renderB, hr, List.mem_map] at hmem
        obtain ⟨sl, hsl, rfl⟩ := hmem
        intro hcontra
        rcases List.mem_append.mp hcontra with hin | hin
        · have hrnl : '\n' ∉ r := by
            rcases reasonB_cases _ _ _ hr with rfl | rfl <;> decide
          exact markerB_no_nl r hrnl hin
        · exact hsub sl (by simpa [tokLinesB] using hsl) hin
      | none =>
        simp only [renderB, hr] at hmem
        exact hsub l' (by simpa [tokLinesB] using hmem)

theorem rms_lines_ne_nil (lines : List (List Char)) (hne : lines ≠ []) :
    remove_menhir_stanzas_lines lines ≠ [] := by
  cases lines with
  | nil => exact absurd rfl hne
  | cons l ls =>
    rw [remove_menhir_stanzas_lines]
    by_cases hl : l.head? = some '('
    · simp only [hl, if_true]
      cases reasonB (stripChars l)
          (joinLines (l :: (collectRest (parenDelta l) ls).1)) <;> simp
    · simp [hl]

/-- The full line-based text transform is idempotent. -/
theorem remove_menhir_stanzas_idem (content : List Char) :
    remove_menhir_stanzas (remove_menhir_stanzas content) =
      remove_menhir_stanzas content := by
  have h1 : splitNl (remove_menhir_stanzas content) =
      remove_menhir_stanzas_lines (splitNl content) := by
    rw [remove_menhir_stanzas]
    exact splitNl_joinLines _ (rms_lines_ne_nil _ (splitNl_ne_nil content))
      (rms_lines_no_nl _ (splitNl_no_nl content))
  conv_lhs => rw [remove_menhir_stanzas]
  rw [h1, rms_lines_idem, ← remove_menhir_stanzas]

/-! ### Characterization of the word-boundary search -/

/-- The character immediately left of an occurrence preceded by `pre`,
when the character before `pre` (if any) is `prev`. -/
def lastCtx (prev : Option Char) (l : List Char) : Option Char :=
  match l with
  | [] => prev
  | c :: cs => (c :: cs).getLast?

theorem lastCtx_cons (prev : Option Char) (c : Char) (pre : List Char) :
    lastCtx prev (c :: pre) = lastCtx (some c) pre := by
  cases pre with
  | nil => rfl
  | cons x xs => simp [lastCtx, List.getLast?_cons_cons]

theorem menhirChars_length : menhirChars.length = 6 := rfl

theorem drop_six_menhir_append (post : List Char) :
    ((menhirChars ++ post).drop 6).head? = post.head? := by
  have := List.drop_left menhirChars post
  rw [menhirChars_length] at this
  rw [this]

/-- The scanning search finds `menhir` exactly when some decomposition
with word boundaries on both sides exists. -/
theorem hasWordMenhirFrom_iff (s : List Char) : ∀ (prev : Option Char),
    hasWordMenhirFrom prev s = true ↔
      ∃ pre post, s = pre ++ menhirChars ++ post ∧
        boundaryOK (lastCtx prev pre) = true ∧
        boundaryOK post.head? = true := by
  induction s with
  | nil =>
    intro prev
    simp only [hasWordMenhirFrom, Bool.false_eq_true, false_iff]
    rintro ⟨pre, post, heq, -, -⟩
    rw [List.append_assoc] at heq
    rcases List.append_eq_nil.mp heq.symm with ⟨-, h2⟩
    rcases List.append_eq_nil.mp h2 with ⟨h3, -⟩
    exact absurd h3 (by simp [menhirChars, litL])
  | cons c cs ih =>
    intro prev
    rw [hasWordMenhirFrom, Bool.or_eq_true]
    constructor
    · rintro (hat | hrec)
      · simp only [wordMenhirAt, Bool.and_eq_true,
          List.isPrefixOf_iff_prefix] at hat
        obtain ⟨⟨hpre, hb1⟩, hb2⟩ := hat
        obtain ⟨post, hpost⟩ := hpre
        refine ⟨[], post, by simp [hpost.symm], hb1, ?_⟩
        rw [← hpost, drop_six_menhir_append] at hb2
        exact hb2
      · obtain ⟨pre, post, heq, hb1, hb2⟩ := (ih (some c)).mp hrec
        exact ⟨c :: pre, post, by simp [heq], by rwa [lastCtx_cons], hb2⟩
    · rintro ⟨pre, post, heq, hb1, hb2⟩
      cases pre with
      | nil =>
        left
        simp only [List.nil_append] at heq
        simp only [wordMenhirAt, Bool.and_eq_true,
          List.isPrefixOf_iff_prefix]
        refine ⟨⟨⟨post, heq.symm⟩, hb1⟩, ?_⟩
        rw [heq, drop_six_menhir_append]
        exact hb2
      | cons p pre =>
        right
        simp only [List.cons_append, List.cons.injEq] at heq
        obtain ⟨rfl, hcs⟩ := heq
        refine (ih (some c)).mpr ⟨pre, post, hcs, ?_, hb2⟩
        rwa [lastCtx_cons] at hb1

/-- `\bmenhir\b` matches `s` iff `s` decomposes around `menhir` with
non-word (or absent) neighbours on both sides. -/
theorem hasWordMenhir_iff (s : List Char) :
    hasWordMenhir s = true ↔
      ∃ pre post, s = pre ++ litL "menhir" ++ post ∧
        boundaryOK pre.getLast? = true ∧
        boundaryOK post.head? = true := by
  rw [hasWordMenhir, hasWordMenhirFrom_iff]
  constructor
  · rintro ⟨pre, post, heq, hb1, hb2⟩
    refine ⟨pre, post, heq, ?_, hb2⟩
    cases pre with
    | nil => simp [boundaryOK]
    | cons x xs => simpa [lastCtx] using hb1
  · rintro ⟨pre, post, heq, hb1, hb2⟩
    refine ⟨pre, post, heq, ?_, hb2⟩
    cases pre with
    | nil => simp [lastCtx, boundaryOK]
    | cons x xs => simpa [lastCtx] using hb1

/-! ### The CLI wrapper of the line-based filter (`main`, lines 77-108) -/

/-- Outcome of `open(dune_file, 'r')` plus `f.read()`. -/
inductive ReadOutcome where
  | ok (content : List Char)
  | fileNotFound
  | ioError
deriving DecidableEq

/-- Outcome of `open(dune_file, 'w')` plus `f.write(...)`. -/
inductive WriteOutcome where
  | ok
  | ioError
deriving DecidableEq

/-- Observable effects of one run of `main`: the returned exit code,
whether any file operation was attempted, and whether a diagnostic was
printed to standard error. -/
structure MainRun where
  exitCode : Nat
  fileAccessed : Bool
  stderrUsed : Bool
deriving DecidableEq

/-- The control flow of `main` (source lines 77-108): `argv` is the full
`sys.argv` (program name included), and the file-system outcomes are
passed in as data. -/
def remove_menhir_main (argv : List (List Char)) (readRes : ReadOutcome)
    (writeRes : WriteOutcome) : MainRun :=
  if ¬(argv.length = 2) then
    { exitCode := 1, fileAccessed := false, stderrUsed := true }
  else
    match readRes with
    | .fileNotFound => { exitCode := 1, fileAccessed := true, stderrUsed := true }
    | .ioError => { exitCode := 1, fileAccessed := true, stderrUsed := true }
    | .ok _ =>
      match writeRes with
      | .ioError => { exitCode := 1, fileAccessed := true, stderrUsed := true }
      | .ok => { exitCode := 0, fileAccessed := true, stderrUsed := false }

/-! ### The reported count of the line-based filter -/

/-- Number of lines a unit contributes when removed (0 when kept). -/
def removedStanzaLineCount (t : MenTok) : Nat :=
  if removedB t then (tokLinesB t).length else 0

/-- The marker prefix test used by `main`'s count. -/
def startsRemoved (l : List Char) : Bool := (litL "; REMOVED").isPrefixOf l

theorem startsRemoved_marker (r sl : List Char) :
    startsRemoved (markerB r ++ sl) = true := by
  rw [startsRemoved, List.isPrefixOf_iff_prefix]
  refine ⟨litL " (" ++ r ++ litL "): " ++ sl, ?_⟩
  have hsplit : litL "; REMOVED" ++ litL " (" = litL "; REMOVED (" := by decide
  rw [markerB]
  rw [show litL "; REMOVED" ++ (litL " (" ++ r ++ litL "): " ++ sl) =
    (litL "; REMOVED" ++ litL " (") ++ r ++ (litL "): " ++ sl) from by
      simp [List.append_assoc]]
  rw [hsplit]
  simp [List.append_assoc]

/-- One unit's rendered lines contain exactly `removedStanzaLineCount t`
marker-prefixed lines, provided its own source lines carry no marker. -/
theorem countP_renderB (t : MenTok)
    (hno : ∀ x ∈ tokLinesB t, startsRemoved x = false) :
    (renderB t).countP startsRemoved = removedStanzaLineCount t := by
  cases t with
  | pass l =>
    have h := hno l (by simp [tokLinesB])
    simp [renderB, removedStanzaLineCount, removedB, menReason,
      List.countP_cons, h]
  | stanza ls =>
    cases ls with
    | nil => rfl
    | cons l tl =>
      cases hr : reasonB (stripChars l) (joinLines (l :: tl)) with
      | some r =>
        simp only [renderB, hr, removedStanzaLineCount, removedB,
          menReason, Option.isSome_some, if_true, tokLinesB]
        rw [List.countP_eq_length_filter, List.filter_eq_self.mpr]
        · simp
        · intro a ha
          rcases List.mem_map.mp ha with ⟨sl, -, rfl⟩
          exact startsRemoved_marker r sl
      | none =>
        simp only [renderB, hr, removedStanzaLineCount, removedB,
          menReason, Option.isSome_none, tokLinesB]
        rw [if_neg (by simp)]
        rw [List.countP_eq_zero]
        intro a ha
        simp [hno a (by simpa [tokLinesB] using ha)]

theorem countP_flatMap_renderB (ts : List MenTok)
    (hno : ∀ t ∈ ts, ∀ x ∈ tokLinesB t, startsRemoved x = false) :
    (ts.flatMap renderB).countP startsRemoved =
      (ts.map removedStanzaLineCount).sum := by
  induction ts with
  | nil => rfl
  | cons t ts ih =>
    rw [List.flatMap_cons, List.countP_append, List.map_cons, List.sum_cons,
      countP_renderB t (hno t (List.mem_cons_self t ts)),
      ih (fun t' ht' => hno t' (List.mem_cons_of_mem t ht'))]

/-- What `main` reports: the total line count of the removed stanzas,
provided no input line already starts with the marker. -/
theorem menhir_reported_count_eq (content : List Char)
    (h : ∀ l ∈ splitNl content, startsRemoved l = false) :
    menhir_reported_count content =
      ((scanStanzas (splitNl content)).map removedStanzaLineCount).sum := by
  have h1 : splitNl (remove_menhir_stanzas content) =
      remove_menhir_stanzas_lines (splitNl content) := by
    rw [remove_menhir_stanzas]
    exact splitNl_joinLines _ (rms_lines_ne_nil _ (splitNl_ne_nil content))
      (rms_lines_no_nl _ (splitNl_no_nl content))
  rw [menhir_reported_count]
  rw [show (fun l => (litL "; REMOVED").isPrefixOf l) = startsRemoved from rfl]
  rw [h1, rms_eq_toksB]
  refine countP_flatMap_renderB _ ?_
  intro t ht x hx
  exact h x (scanStanzas_text (splitNl content) ▸ mem_concatB t _ x ht hx)

theorem renderB_length (t : MenTok) :
    (renderB t).length = (tokLinesB t).length := by
  cases t with
  | pass l => rfl
  | stanza ls =>
    cases ls with
    | nil => rfl
    | cons l tl =>
      cases hr : reasonB (stripChars l) (joinLines (l :: tl)) <;>
        simp [renderB, hr, tokLinesB]

theorem flatMap_renderB_length (ts : List MenTok) :
    (ts.flatMap renderB).length = (concatB ts).length := by
  induction ts with
  | nil => rfl
  | cons t ts ih =>
    rw [List.flatMap_cons, concatB_cons, List.length_append,
      List.length_append, renderB_length, ih]

/-- The line transform preserves the number of lines. -/
theorem rms_lines_length (lines : List (List Char)) :
    (remove_menhir_stanzas_lines lines).length = lines.length := by
  rw [rms_eq_toksB, flatMap_renderB_length, scanStanzas_text]

/-! ### Claims -/

/-- C1: Predicate A decision rule: every top-level expression scanned by
the character-based filter is removed iff its raw text, lowered to lower
case, contains `context_flags`, `clibs.sexp`, `cxxflags.sexp`,
`cflags.sexp`, or both `flags.sexp` and `(target`; in particular an
expression containing `flags.sexp` but none of the other triggers and no
`(target` substring is kept. -/
theorem C1_predicateA_decision :
    (∀ (content s : List Char), DuneTok.expr s ∈ scanToks content →
      (removedA (DuneTok.expr s) = true ↔
        (litL "context_flags" <:+: lowerL s ∨
         litL "clibs.sexp" <:+: lowerL s ∨
         litL "cxxflags.sexp" <:+: lowerL s ∨
         litL "cflags.sexp" <:+: lowerL s ∨
         (litL "flags.sexp" <:+: lowerL s ∧ litL "(target" <:+: lowerL s)))) ∧
    (∀ s : List Char,
      litL "flags.sexp" <:+: lowerL s →
      ¬(litL "context_flags" <:+: lowerL s) →
      ¬(litL "clibs.sexp" <:+: lowerL s) →
      ¬(litL "cxxflags.sexp" <:+: lowerL s) →
      ¬(litL "cflags.sexp" <:+: lowerL s) →
      ¬(litL "(target" <:+: lowerL s) →
      should_remove_A s = false) := by
  have key : ∀ s : List Char, should_remove_A s = true ↔
      (litL "context_flags" <:+: lowerL s ∨
       litL "clibs.sexp" <:+: lowerL s ∨
       litL "cxxflags.sexp" <:+: lowerL s ∨
       litL "cflags.sexp" <:+: lowerL s ∨
       (litL "flags.sexp" <:+: lowerL s ∧ litL "(target" <:+: lowerL s)) := by
    intro s
    simp only [should_remove_A, Bool.or_eq_true, Bool.and_eq_true,
      isSub_iff_infix, or_assoc]
  constructor
  · intro content s hmem
    exact key s
  · intro s h1 h2 h3 h4 h5 h6
    rw [← Bool.not_eq_true]
    intro hc
    rcases (key s).mp hc with h | h | h | h | ⟨h, h'⟩
    · exact h2 h
    · exact h3 h
    · exact h4 h
    · exact h5 h
    · exact h6 h'

/-- Witness for C1 at concrete inputs: `(x context_flags)` is a scanned
expression and is removed; `(rule (deps flags.sexp))` is kept. -/
theorem C1_witness :
    removedA (DuneTok.expr (litL "(x context_flags)")) = true ∧
    should_remove_A (litL "(rule (deps flags.sexp))") = false := by
  constructor
  · exact (C1_predicateA_decision.1 (litL "(x context_flags)")
      (litL "(x context_flags)")
      (by simp [scanToks, scanBal, wsChar, litL])).mpr
      (Or.inl (by decide))
  · exact C1_predicateA_decision.2 (litL "(rule (deps flags.sexp))")
      (by decide) (by decide) (by decide) (by decide) (by decide) (by decide)

/-- C2: Predicate B decision rule: a collected stanza is removed iff its
stripped first line starts with `(menhir`, or it starts with `(rule` and
the stanza text contains the standalone word `menhir` (word-boundary
semantics); in particular a `(rule` stanza containing `menhirLibFoo` but
no standalone `menhir` is kept. -/
theorem C2_predicateB_decision :
    (∀ (l content : List Char),
      ((reasonB (stripChars l) content).isSome = true ↔
        (litL "(menhir" <+: stripChars l ∨
         (litL "(rule" <+: stripChars l ∧
           ∃ pre post, content = pre ++ litL "menhir" ++ post ∧
             boundaryOK pre.getLast? = true ∧
             boundaryOK post.head? = true)))) ∧
    reasonB (stripChars (litL "(rule (uses menhirLibFoo))"))
      (litL "(rule (uses menhirLibFoo))") = none := by
  constructor
  · intro l content
    unfold reasonB
    by_cases h1 : (litL "(menhir").isPrefixOf (stripChars l) = true
    · rw [if_pos h1]
      exact iff_of_true rfl (Or.inl (List.isPrefixOf_iff_prefix.mp h1))
    · rw [if_neg h1]
      by_cases h2 : ((litL "(rule").isPrefixOf (stripChars l) &&
          hasWordMenhir content) = true
      · rw [if_pos h2]
        have h2' : (litL "(rule").isPrefixOf (stripChars l) = true ∧
            hasWordMenhir content = true := by simpa using h2
        exact iff_of_true rfl (Or.inr ⟨List.isPrefixOf_iff_prefix.mp h2'.1,
          (hasWordMenhir_iff content).mp h2'.2⟩)
      · rw [if_neg h2]
        refine iff_of_false (by simp) ?_
        rintro (hp | ⟨hp, hw⟩)
        · exact h1 (List.isPrefixOf_iff_prefix.mpr hp)
        · have hb1 : (litL "(rule").isPrefixOf (stripChars l) = true :=
            List.isPrefixOf_iff_prefix.mpr hp
          have hb2 : hasWordMenhir content = true :=
            (hasWordMenhir_iff content).mpr hw
          exact h2 (by rw [hb1, hb2]; rfl)
  · decide

/-- Witness for C2 at a concrete input: a `(rule ...)` stanza literally
running `menhir` is removed. -/
theorem C2_witness :
    (reasonB (stripChars (litL "(rule (run menhir))"))
      (litL "(rule (run menhir))")).isSome = true :=
  (C2_predicateB_decision.1 (litL "(rule (run menhir))")
    (litL "(rule (run menhir))")).mpr
    (Or.inr ⟨by decide,
      litL "(rule (run ", litL "))", by decide, by decide, by decide⟩)

/-- C3: top-level-only removal: a stanza whose stripped first line starts
with neither `(menhir` nor `(rule` is kept verbatim, even when it
contains nested `menhir` forms; the rest of the input is filtered
independently of it. -/
theorem C3_top_level_only :
    ∀ (l : List Char) (ls : List (List Char)),
      l.head? = some '(' →
      (litL "(menhir").isPrefixOf (stripChars l) = false →
      (litL "(rule").isPrefixOf (stripChars l) = false →
      remove_menhir_stanzas_lines (l :: ls) =
        (l :: (collectRest (parenDelta l) ls).1)
          ++ remove_menhir_stanzas_lines (collectRest (parenDelta l) ls).2 := by
  intro l ls hl h1 h2
  have hnone : reasonB (stripChars l)
      (joinLines (l :: (collectRest (parenDelta l) ls).1)) = none := by
    unfold reasonB
    rw [h1, h2]
    simp
  rw [remove_menhir_stanzas_lines]
  simp only [hl, if_true, hnone]

/-- Witness for C3 at a concrete input: a `(library ...)` stanza with a
nested `(menhir ...)` form is kept verbatim. -/
theorem C3_witness :
    remove_menhir_stanzas_lines
      [litL "(library", litL " (menhir (modules parser))", litL " (name foo))"] =
      [litL "(library", litL " (menhir (modules parser))", litL " (name foo))"] := by
  rw [C3_top_level_only (litL "(library")
    [litL " (menhir (modules parser))", litL " (name foo))"]
    (by decide) (by decide) (by decide)]
  simp [collectRest, parenDelta, litL, remove_menhir_stanzas_lines]

/-- C4 counterexample: on the input `"(rule\n (run menhir))"` the
line-based filter removes exactly one top-level stanza, yet the count it
reports on standard output is 2 (it counts commented-out lines, not
stanzas), so the reported count does not equal the number of removed
units. -/
theorem C4_counterexample :
    menhir_reported_count (litL "(rule\n (run menhir))") = 2 ∧
    (scanStanzas (splitNl (litL "(rule\n (run menhir))"))).countP removedB
      = 1 := by
  constructor
  · simp [menhir_reported_count, remove_menhir_stanzas,
      remove_menhir_stanzas_lines, splitNl, collectRest, parenDelta,
      reasonB, stripChars, isPySpace, joinLines, joinTail, hasWordMenhir,
      hasWordMenhirFrom, wordMenhirAt, menhirChars, boundaryOK, isWordChar,
      markerB, litL, startsRemoved, List.isPrefixOf]
  · simp [scanStanzas, splitNl, collectRest, parenDelta, removedB,
      menReason, reasonB, stripChars, isPySpace, joinLines, joinTail,
      hasWordMenhir, hasWordMenhirFrom, wordMenhirAt, menhirChars,
      boundaryOK, isWordChar, litL, List.isPrefixOf]

/-- C4 amended: the character-based filter's reported count equals the
number of top-level expressions its predicate removed; the line-based
filter's reported count equals the total number of lines of the removed
stanzas (each removed stanza contributes one count per line), provided no
input line already begins with `'; REMOVED'`. -/
theorem C4_count_accuracy_amended :
    (∀ content : List Char,
      (remove_context_flags_stanzas content).2 =
        (scanToks content).countP removedA) ∧
    (∀ content : List Char,
      (∀ l ∈ splitNl content, startsRemoved l = false) →
      menhir_reported_count content =
        ((scanStanzas (splitNl content)).map removedStanzaLineCount).sum) :=
  ⟨fun content => by rw [rcf_eq_toks],
    fun content h => menhir_reported_count_eq content h⟩

/-- Witness for C4 at a concrete input without pre-existing markers. -/
theorem C4_witness :
    menhir_reported_count (litL "(menhir x)\n(library (name foo))") =
      ((scanStanzas (splitNl (litL "(menhir x)\n(library (name foo))"))).map
        removedStanzaLineCount).sum :=
  C4_count_accuracy_amended.2 _ (by decide)

/-- C5 counterexample: on the claimed input the first output line of the
character-based filter is
`'; DISABLED for cross-compilation: (rule (deps context_flags.exe) (target out))...'`
(the whole 44-character first line plus ellipsis), not the claimed
`'... (target out...'` (which drops the closing parens). -/
theorem C5_counterexample :
    (splitNl (rcfText (litL "(rule (deps context_flags.exe) (target out))\n(library (name foo))\n"))).head? ≠
      some (litL "; DISABLED for cross-compilation: (rule (deps context_flags.exe) (target out...") := by
  simp [rcfText, remove_context_flags_stanzas, scanBal, scanComment,
    wsChar, should_remove_A, isSub, lowerL, litL, markerA, markerBodyA,
    firstLine, splitNl]

/-- C5 amended: on input
`"(rule (deps context_flags.exe) (target out))\n(library (name foo))\n"`
the character-based filter yields the marker line containing the full
first line plus `...`, then an empty line (the original newline after the
replaced stanza), then the unchanged `(library (name foo))` line, and
reports `removed_count = 1`. -/
theorem C5_scenario_amended :
    remove_context_flags_stanzas
      (litL "(rule (deps context_flags.exe) (target out))\n(library (name foo))\n") =
      (litL "; DISABLED for cross-compilation: (rule (deps context_flags.exe) (target out))...\n\n(library (name foo))\n",
        1) := by
  simp [remove_context_flags_stanzas, scanBal, scanComment, wsChar,
    should_remove_A, isSub, lowerL, litL, markerA, markerBodyA, firstLine]

/-- C6: no-op identity: when no scanned top-level unit satisfies the
removal predicate, each filter's output text is identical to its input
text. -/
theorem C6_noop_identity :
    (∀ content : List Char,
      (∀ t ∈ scanToks content, removedA t = false) →
      rcfText content = content) ∧
    (∀ content : List Char,
      (∀ t ∈ scanStanzas (splitNl content), removedB t = false) →
      remove_menhir_stanzas content = content) := by
  constructor
  · intro content h
    rw [rcfText, rcf_eq_toks]
    exact (flatten_renderA_of_kept _ h).trans (scanToks_text content)
  · intro content h
    rw [remove_menhir_stanzas, rms_eq_toksB, flatMap_renderB_of_kept _ h,
      scanStanzas_text, joinLines_splitNl]

/-- Witness for C6 at a concrete input with no matching unit. -/
theorem C6_witness :
    rcfText (litL "(library (name foo))\n") = litL "(library (name foo))\n" ∧
    remove_menhir_stanzas (litL "(library (name foo))\n") =
      litL "(library (name foo))\n" := by
  constructor
  · exact C6_noop_identity.1 _ (by
      simp [scanToks, scanBal, scanComment, wsChar, litL, removedA,
        should_remove_A, isSub, lowerL, List.isPrefixOf])
  · exact C6_noop_identity.2 _ (by
      simp [scanStanzas, splitNl, collectRest, parenDelta, removedB,
        menReason, reasonB, stripChars, isPySpace, joinLines, joinTail,
        hasWordMenhir, hasWordMenhirFrom, wordMenhirAt, menhirChars,
        boundaryOK, isWordChar, litL, List.isPrefixOf])

/-- C7 counterexample: text appearing only inside a `;` comment does
influence a removal decision of the character-based filter when the
comment lies inside a parenthesized expression: two inputs differing only
in their comment text get different removal counts. -/
theorem C7_counterexample :
    (remove_context_flags_stanzas (litL "(library ; context_flags\n)")).2 = 1 ∧
    (remove_context_flags_stanzas (litL "(library ; placeholder\n)")).2 = 0 := by
  constructor <;>
    simp [remove_context_flags_stanzas, scanBal, scanComment, wsChar,
      should_remove_A, isSub, lowerL, litL, markerA, markerBodyA, firstLine]

/-- C7 amended: the character-based filter's output is the per-token
rendering of its scan; a comment token scanned at top level (outside any
expression) is emitted verbatim and is never a removal candidate. A `;`
comment inside a parenthesized expression is part of that expression's
raw text (the depth scan does not skip it) and can influence removal. -/
theorem C7_comments_amended :
    (∀ content : List Char,
      rcfText content = ((scanToks content).map renderA).flatten) ∧
    (∀ s : List Char, renderA (DuneTok.comment s) = s) ∧
    (∀ s : List Char, removedA (DuneTok.comment s) = false) :=
  ⟨fun content => by rw [rcfText, rcf_eq_toks],
    fun _ => rfl, fun _ => rfl⟩

/-- C8: line-based removal shape: a removed stanza is emitted as every
one of its original lines prefixed with `'; REMOVED (<reason>): '`, with
the rest of the input filtered after them; and the whole transform
preserves the number of lines (lines are commented, never deleted). -/
theorem C8_removal_shape :
    (∀ lines : List (List Char),
      (remove_menhir_stanzas_lines lines).length = lines.length) ∧
    (∀ (l : List Char) (ls : List (List Char)) (r : List Char),
      l.head? = some '(' →
      reasonB (stripChars l)
        (joinLines (l :: (collectRest (parenDelta l) ls).1)) = some r →
      remove_menhir_stanzas_lines (l :: ls) =
        (l :: (collectRest (parenDelta l) ls).1).map
          (fun sl => litL "; REMOVED (" ++ r ++ litL "): " ++ sl)
          ++ remove_menhir_stanzas_lines (collectRest (parenDelta l) ls).2) := by
  constructor
  · exact rms_lines_length
  · intro l ls r hl hr
    rw [remove_menhir_stanzas_lines]
    simp only [hl, if_true, hr]
    rfl

/-- Witness for C8 at a concrete input: a one-line `(menhir ...)` stanza
is emitted commented out. -/
theorem C8_witness :
    remove_menhir_stanzas_lines [litL "(menhir (modules parser))"] =
      [litL "; REMOVED (menhir stanza): (menhir (modules parser))"] := by
  rw [C8_removal_shape.2 (litL "(menhir (modules parser))") []
    (litL "menhir stanza") (by decide) (by decide)]
  simp [collectRest, litL, remove_menhir_stanzas_lines]

/-- C9: line-based CLI error handling: the exit code is 0 exactly on a
successful read and write with exactly one file argument, and 1 on usage
error, file-not-found, or I/O error; on a usage error the diagnostic goes
to standard error and no file access is attempted. -/
theorem C9_cli_errors :
    ∀ (argv : List (List Char)) (r : ReadOutcome) (w : WriteOutcome),
      ((remove_menhir_main argv r w).exitCode = 0 ↔
        (argv.length = 2 ∧ (∃ c, r = ReadOutcome.ok c) ∧
          w = WriteOutcome.ok)) ∧
      ((remove_menhir_main argv r w).exitCode = 0 ∨
        (remove_menhir_main argv r w).exitCode = 1) ∧
      (¬(argv.length = 2) →
        (remove_menhir_main argv r w).exitCode = 1 ∧
        (remove_menhir_main argv r w).fileAccessed = false ∧
        (remove_menhir_main argv r w).stderrUsed = true) := by
  intro argv r w
  by_cases ha : argv.length = 2 <;> cases r <;> cases w <;>
    simp [remove_menhir_main, ha]

/-- Witness for C9: a usage error (no argument) exits 1 without touching
the file; a successful run exits 0. -/
theorem C9_witness :
    (remove_menhir_main [litL "prog"] ReadOutcome.fileNotFound
      WriteOutcome.ok).exitCode = 1 ∧
    (remove_menhir_main [litL "prog"] ReadOutcome.fileNotFound
      WriteOutcome.ok).fileAccessed = false ∧
    (remove_menhir_main [litL "prog", litL "dune"] (ReadOutcome.ok [])
      WriteOutcome.ok).exitCode = 0 := by
  have h1 := (C9_cli_errors [litL "prog"] ReadOutcome.fileNotFound
    WriteOutcome.ok).2.2 (by decide)
  have h2 := (C9_cli_errors [litL "prog", litL "dune"] (ReadOutcome.ok [])
    WriteOutcome.ok).1.mpr ⟨rfl, ⟨[], rfl⟩, rfl⟩
  exact ⟨h1.1, h1.2.1, h2⟩

/-- C10: idempotence of the full transform: applying either filter's text
transform twice yields the same text as applying it once. -/
theorem C10_idempotence :
    (∀ content : List Char, rcfText (rcfText content) = rcfText content) ∧
    (∀ content : List Char,
      remove_menhir_stanzas (remove_menhir_stanzas content) =
        remove_menhir_stanzas content) :=
  ⟨rcfText_idem, remove_menhir_stanzas_idem⟩

end OpamFeedstock
